import Mathlib

/-!
Shallow embedding of the funsor core (src/funsor.py and
src/funsor/sum_product.py) and proofs about the spec's claims.

Machine reals are modelled by exact integers `ℤ`; torch tensors by a
shape together with a total indexing function `List ℤ → ℤ`; Python
dictionaries by association lists that keep insertion order.
-/

namespace FunsorModel

/-- Reduction-operator tags for the two semiring operators the claims
exercise (`operator.add` / `operator.mul`, both members of the
`_REDUCE_OP_TO_TORCH` table in src/funsor.py). -/
inductive OpT
  | add
  | mul
deriving DecidableEq, Repr

/-- Elementwise meaning of an operator tag. -/
def opFn : OpT → ℤ → ℤ → ℤ
  | .add => (· + ·)
  | .mul => (· * ·)

/-- Modelled from the spec: `funsor.ops.UNITS` (the module is not under
src/) maps each product operator to its identity element — "the
multiplicative/additive identity element appropriate to `prod_op`". -/
def UNITS : OpT → ℤ
  | .add => 0
  | .mul => 1

/-- First index of `d` in `l`, mirroring Python `list.index` (which raises
`ValueError` when absent; callers handle the `none`). -/
def idxOf? (l : List String) (d : String) : Option ℕ :=
  match l with
  | [] => none
  | x :: rest => if x = d then some 0 else (idxOf? rest d).map (· + 1)

/-- Insert `a` at position `pos` of `l` (used to re-assemble a full index
from a partial one when one axis has been fixed). -/
def insertAt (pos : ℕ) (a : α) (l : List α) : List α :=
  l.take pos ++ a :: l.drop pos

/-- First-match association-list lookup (Python `dict` read). -/
def lookupA (l : List (String × σ)) (d : String) : Option σ :=
  match l with
  | [] => none
  | (k, v) :: rest => if k = d then some v else lookupA rest d

/-- Funsor backed by a torch tensor (`class Tensor` in src/funsor.py):
named dims, the axis sizes, and the array contents as a total function
from an index list to the entry. -/
structure PT where
  dims : List String
  shape : List ℕ
  data : List ℤ → ℤ

/-- Dimension invariant asserted by `Funsor.__init__`: dims are unique and
parallel to the shape. -/
def InvT (t : PT) : Prop := t.dims.Nodup ∧ t.dims.length = t.shape.length

/-- Substitution values a `__call__` argument can take: a number, a
rename string, a funsor `Tensor`, a Python `slice`, `Ellipsis`, or
anything else (raw torch tensors, callables, ...) which `_substitute`
does not recognize. -/
inductive CallV
  | num (n : ℤ)
  | str (s : String)
  | tens (t : PT)
  | slice (start stop step : Option ℤ)
  | ellipsis
  | other

/-- Invariant of a substitution value (only funsor payloads carry one). -/
def InvV : CallV → Prop
  | .tens u => InvT u
  | _ => True

/-- Values of `torch.arange(start, stop, step)` for a positive step. -/
def arangeZ (start stop step : ℤ) : List ℤ :=
  (List.range (((stop - start + step - 1) / step).toNat)).map
    (fun i : ℕ => start + step * (i : ℤ))

/-- One-dimensional `Tensor((dim,), torch.arange(...))` as built by the
slice branch of `Tensor._substitute`. -/
def arangeTensor (d : String) (start stop step : ℤ) : PT :=
  ⟨[d], [(arangeZ start stop step).length],
    fun idx => (arangeZ start stop step).getD (idx.headD 0).toNat 0⟩

/-- Gather branch of `Tensor._substitute` (a `Tensor`-valued index): splice
the index funsor's dims in at `pos`, failing when a gather dim collides
with another existing dim of the receiver. -/
def PT.substituteTensor (t : PT) (dim : String) (pos : ℕ) (u : PT) :
    Except String PT :=
  if u.dims.any (fun d => decide (d ≠ dim ∧ d ∈ t.dims)) then
    .error "NotImplementedError"
  else
    .ok ⟨t.dims.take pos ++ u.dims ++ t.dims.drop (pos + 1),
         t.shape.take pos ++ u.shape ++ t.shape.drop (pos + 1),
         fun idx => t.data (idx.take pos
           ++ u.data ((idx.drop pos).take u.dims.length)
             :: idx.drop (pos + u.dims.length))⟩

/-- Transcription of `Tensor._substitute` (src/funsor.py lines 663-692).
Substituting a number indexes and drops the axis; a full slice is the
identity; any other slice re-indexes through an `arange` tensor; a tensor
gathers; a string writes the key back into the dims (the source writes
`dims[pos] = dim`, so a rename request leaves the dims unchanged);
anything else raises. -/
def PT.substitute (t : PT) (dim : String) (v : CallV) : Except String PT :=
  match idxOf? t.dims dim with
  | none => .error "ValueError"
  | some pos =>
    match v with
    | .num n =>
      .ok ⟨t.dims.eraseIdx pos, t.shape.eraseIdx pos,
           fun idx => t.data (insertAt pos n idx)⟩
    | .slice start stop step =>
      if start = none ∧ stop = none ∧ step = none then .ok t
      else
        t.substituteTensor dim pos
          (arangeTensor dim (start.getD 0)
            (stop.getD (t.shape.getD pos 0 : ℤ)) (step.getD 1))
    | .tens u => t.substituteTensor dim pos u
    | .str s =>
      if t.dims.getD pos "" = s then .ok t
      else .ok ⟨t.dims.set pos dim, t.shape, t.data⟩
    | .ellipsis => .error "NotImplementedError"
    | .other => .error "NotImplementedError"

/-- Python `dict.update` on an association list: existing keys are
overwritten in place, new keys appended in order. -/
def setAssoc (kw : List (String × σ)) (k : String) (v : σ) :
    List (String × σ) :=
  match kw with
  | [] => [(k, v)]
  | (k', v') :: rest =>
    if k' = k then (k', v) :: rest else (k', v') :: setAssoc rest k v

/-- Fold `dict.update` over a list of pairs. -/
def updAssoc (kw : List (String × σ)) (upds : List (String × σ)) :
    List (String × σ) :=
  upds.foldl (fun acc p => setAssoc acc p.1 p.2) kw

/-- Position of the first `Ellipsis` among positional arguments. -/
def findEllipsis (args : List CallV) : Option ℕ :=
  args.findIdx? (fun v => match v with | .ellipsis => true | _ => false)

/-- Transcription of `Tensor.__call__` (src/funsor.py lines 645-661):
filter named arguments to known dims, let a first `Ellipsis` bind the
trailing dims from the trailing arguments, bind remaining positional
arguments left-to-right, then substitute one dim at a time. -/
def PT.call (t : PT) (args : List CallV) (kwargs : List (String × CallV)) :
    Except String PT :=
  let kw0 := kwargs.filter (fun p => decide (p.1 ∈ t.dims))
  let ek :=
    match findEllipsis args with
    | some pos =>
      (args.take pos,
       updAssoc kw0 (t.dims.reverse.zip ((args.drop (pos + 1)).reverse)))
    | none => (args, kw0)
  let kw2 := updAssoc ek.2 (t.dims.zip ek.1)
  kw2.foldlM (fun u p => u.substitute p.1 p.2) t

/-- Transcription of `Tensor.pointwise_unary`: apply the elementwise
operator to the backing data. -/
def PT.pointwise_unary (t : PT) (op : ℤ → ℤ) : PT :=
  ⟨t.dims, t.shape, fun idx => op (t.data idx)⟩

/-- Union dimension order of `_align_tensors`: first-seen-first over the
operands' dims. -/
def unionDims (d1 d2 : List String) : List String :=
  d1 ++ d2.filter (fun d => decide (d ∉ d1))

/-- Per-dim sizes of `_align_tensors` (`sizes[dim] = size` in operand
order, so the second operand's size wins on a shared name). -/
def unionSizes (d1 : List String) (s1 : List σ) (d2 : List String)
    (s2 : List σ) (dflt : σ) : List σ :=
  (unionDims d1 d2).map (fun d =>
    match lookupA (d2.zip s2) d with
    | some s => s
    | none => (lookupA (d1.zip s1) d).getD dflt)

/-- Index of the aligned view restricted back to one operand: pick, for
each of the operand's dims in order, the coordinate of that dim in the
union order. -/
def PT.restrict (t : PT) (ud : List String) (idx : List ℤ) : List ℤ :=
  t.dims.map (fun d => idx.getD ((idxOf? ud d).getD 0) 0)

/-- Transcription of `Tensor.pointwise_binary` for two tensor operands:
identical dim tuples apply the operator directly, otherwise the operands
are aligned to the union dimension order by `_align_tensors` first. -/
def PT.pointwise_binary (t u : PT) (op : ℤ → ℤ → ℤ) : PT :=
  if t.dims = u.dims then
    ⟨t.dims, t.shape.zipWith Nat.max u.shape,
     fun idx => op (t.data idx) (u.data idx)⟩
  else
    ⟨unionDims t.dims u.dims,
     unionSizes t.dims t.shape u.dims u.shape 0,
     fun idx => op (t.data (t.restrict (unionDims t.dims u.dims) idx))
                   (u.data (u.restrict (unionDims t.dims u.dims) idx))⟩

/-- Batched reduction of one enumerated axis (`torch.sum` / `torch.prod`
along `pos`), folding the operator over the axis with its unit. -/
def axisFold (op : OpT) (n : ℕ) (g : ℤ → ℤ) : ℤ :=
  (List.range n).foldl (fun a i => opFn op a (g (i : ℤ))) (UNITS op)

/-- Remove axis `pos` of a tensor by reducing it with `op`. -/
def PT.removeAxis (t : PT) (op : OpT) (pos : ℕ) : PT :=
  ⟨t.dims.eraseIdx pos, t.shape.eraseIdx pos,
   fun idx => axisFold op (t.shape.getD pos 0)
     (fun i => t.data (insertAt pos i idx))⟩

/-- All indices of a shape, in row-major order (full-tensor reduction). -/
def allIndices : List ℕ → List (List ℤ)
  | [] => [[]]
  | n :: rest =>
    (List.range n).flatMap (fun i => (allIndices rest).map ((i : ℤ) :: ·))

/-- Transcription of `Tensor.reduce` for a table operator (src/funsor.py
lines 729-748): `dims=None` reduces everything to a scalar; otherwise the
requested dims are intersected with the present dims (unknown names are
dropped), an empty intersection returns `self`, and the matching axes are
reduced one at a time from the highest position down. -/
def PT.reduce (t : PT) (op : OpT) (dsel : Option (List String)) : PT :=
  match dsel with
  | none =>
    ⟨[], [], fun _ =>
      (allIndices t.shape).foldl (fun a idx => opFn op a (t.data idx))
        (UNITS op)⟩
  | some ds =>
    if t.dims.filter (fun d => decide (d ∈ ds)) = [] then t
    else
      (((List.range t.dims.length).filter
          (fun i => decide (t.dims.getD i "" ∈ ds))).reverse).foldl
        (fun u pos => u.removeAxis op pos) t

/-- Transcription of `Funsor.contract` as written (src/funsor.py line
314): `self.pointwise_binary(prod_op, other).reduce(sum_op, dims)`. The
positional call binds `other := prod_op` (a callable, not a Funsor) and
`op := other`, so `pointwise_binary` takes its non-Funsor branch
`self.pointwise_unary(lambda a: op(a, other))`, and `Tensor.pointwise_unary`
evaluates `op(self.data) = other.__call__(self.data, prod_op)` — the raw
torch tensor and the callable are substitution values no `_substitute`
branch recognizes, and a 0-dim `other` returns a Funsor that
`Tensor.__init__` then rejects with its `isinstance(data, torch.Tensor)`
assertion. The trailing `reduce` is never reached. -/
def PT.contract (_t : PT) (_sumOp : OpT) (u : PT) (_dsel : Option (List String)) :
    Except String PT :=
  match u.call [CallV.other, CallV.other] [] with
  | .error e => .error e
  | .ok _ => .error "AssertionError"

/-- Concrete tensor `a = Tensor(("i",), torch.tensor([1., 2.]))`. -/
def c1_a : PT :=
  ⟨["i"], [2], fun idx => ([1, 2] : List ℤ).getD (idx.headD 0).toNat 0⟩

/-- Concrete tensor `b = Tensor(("i",), torch.tensor([3., 4.]))`. -/
def c1_b : PT :=
  ⟨["i"], [2], fun idx => ([3, 4] : List ℤ).getD (idx.headD 0).toNat 0⟩

/-- Sizes a funsor dimension can have: a finite integer or one of the
continuous `DOMAINS` tags (`"real"`, `"positive"`, `"unit_interval"`). -/
inductive Size
  | fin (n : ℕ)
  | dom (s : String)
deriving DecidableEq

/-- Funsor values a `var` / `Variable.__call__` interaction can produce: a
`Variable`, a `Tensor`, or some other funsor supplied by the caller
(abstracted by a tag, since only its identity matters here). -/
inductive FVal
  | vari (name : String) (size : Size)
  | tens (t : PT)
  | ofunsor (tag : ℕ)

/-- The process-wide `_VARIABLES` registry (a `WeakValueDictionary` in
src/funsor.py line 473), modelled as an insertion-ordered map; an entry
stands for a cached funsor while some owner still holds a reference to
it. -/
abbrev Registry := List ((String × Size) × FVal)

/-- Registry lookup (first match). -/
def lookupReg (reg : Registry) (k : String × Size) : Option FVal :=
  match reg with
  | [] => none
  | (k', v) :: rest => if k' = k then some v else lookupReg rest k

/-- Tensor `Tensor((name,), torch.arange(size))`: the entry at index `i`
is `i` itself. -/
def arangePT (name : String) (n : ℕ) : PT :=
  ⟨[name], [n], fun idx => idx.headD 0⟩

/-- Transcription of `var` (src/funsor.py lines 536-553): return the
cached funsor for the key `(name, size)` when present; otherwise build
one — a `Tensor` holding `arange(size)` for an integer size, a `Variable`
for a continuous domain — store it under the key and return it. -/
def var (reg : Registry) (name : String) (size : Size) : FVal × Registry :=
  match lookupReg reg (name, size) with
  | some v => (v, reg)
  | none =>
    match size with
    | .fin n =>
      (FVal.tens (arangePT name n),
       reg ++ [((name, .fin n), FVal.tens (arangePT name n))])
    | .dom s =>
      (FVal.vari name (.dom s),
       reg ++ [((name, .dom s), FVal.vari name (.dom s))])

/-- Substitution values `Variable.__call__` distinguishes. -/
inductive VSub
  | num (n : ℤ)
  | str (s : String)
  | fsor (f : FVal)
  | ellipsis
  | other

/-- Python results of `Variable.__call__`: a funsor, or the bare `return`
of the numeric branch — Python `None`. -/
inductive VCallRes
  | pynone
  | fsor (f : FVal)

/-- Transcription of `Variable.__call__` (src/funsor.py lines 497-510):
positional arguments zip onto the single dim (overwriting a named
binding); no binding for the name returns `self`; `Ellipsis` returns
`self`; a string builds a variable of the same size through `var`; a
`Number` hits a bare `return`, i.e. Python `None`; a funsor value is
returned as is; anything else raises `NotImplementedError`. -/
def Variable.call (name : String) (size : Size) (reg : Registry)
    (args : List VSub) (kwargs : List (String × VSub)) :
    Except String (VCallRes × Registry) :=
  let kw :=
    match args with
    | [] => kwargs
    | a :: _ => setAssoc kwargs name a
  match lookupA kw name with
  | none => .ok (.fsor (.vari name size), reg)
  | some v =>
    match v with
    | .ellipsis => .ok (.fsor (.vari name size), reg)
    | .str s =>
      let r := var reg s size
      .ok (.fsor r.1, r.2)
    | .num _ => .ok (.pynone, reg)
    | .fsor f => .ok (.fsor f, reg)
    | .other => .error "NotImplementedError"

/-- Funsor backed by an opaque Python function (`class Function` in
src/funsor.py): named dims, a parallel list of domains, and the
elementwise evaluator modelled as reading a named environment. -/
structure PF where
  dims : List String
  shape : List Size
  fn : (String → ℤ) → ℤ

/-- Dimension invariant for a Function funsor. -/
def InvF (f : PF) : Prop := f.dims.Nodup ∧ f.dims.length = f.shape.length

/-- Derived `schema` read: the domain recorded for a named dim. -/
def PF.schema (f : PF) (d : String) : Option Size :=
  lookupA (f.dims.zip f.shape) d

/-- Substituting a concrete index for one dim of a Function funsor
(`Function.__call__` with a single named argument, src/funsor.py lines
590-597): the dim is dropped from the residual schema and the evaluator
partially applied. -/
def PF.subst (f : PF) (d : String) (i : ℤ) : PF :=
  ⟨f.dims.filter (fun x => decide (x ≠ d)),
   ((f.dims.zip f.shape).filter (fun p => decide (p.1 ≠ d))).map Prod.snd,
   fun env => f.fn (fun x => if x = d then i else env x)⟩

/-- Generic `Funsor.pointwise_unary` (src/funsor.py lines 223-231): a new
Function over the same dims and shape whose evaluator is an arbitrary
transformation of the receiver's (the transformation stays opaque, as the
Python closure does). -/
def PF.pointwise_unary (f : PF)
    (tr : ((String → ℤ) → ℤ) → (String → ℤ) → ℤ) : PF :=
  ⟨f.dims, f.shape, tr f.fn⟩

/-- Generic `Funsor.pointwise_binary` (src/funsor.py lines 233-260):
identical dim tuples pair the evaluators directly; otherwise the schemas
are unioned (the second operand's domain wins on a shared name, dims keep
first-seen order) and each operand reads its own dims from the
environment. -/
def PF.pointwise_binary (f g : PF) (op : ℤ → ℤ → ℤ) : PF :=
  if f.dims = g.dims then
    ⟨f.dims, f.shape, fun env => op (f.fn env) (g.fn env)⟩
  else
    ⟨unionDims f.dims g.dims,
     unionSizes f.dims f.shape g.dims g.shape (Size.fin 0),
     fun env => op (f.fn env) (g.fn env)⟩

/-- Loop body of the generic `Funsor.reduce` over the dims to reduce:
look the current dim up in the evolving schema, raise on a continuous
domain (`cannot reduce dim`), raise on an empty enumeration (Python
`reduce()` of an empty sequence), and otherwise fold the substituted
funsors pairwise with `op` (each pairing is a `pointwise_binary` on
identical dim tuples). -/
def genericReduceGo (op : ℤ → ℤ → ℤ) : List String → PF → Except String PF
  | [], f => .ok f
  | d :: rest, f =>
    match f.schema d with
    | some (.fin 0) => .error "TypeError"
    | some (.fin (m + 1)) =>
      genericReduceGo op rest
        (((List.range m).map (fun i => f.subst d ((i : ℤ) + 1))).foldl
          (fun a b => a.pointwise_binary b op) (f.subst d 0))
    | some (.dom _) => .error "NotImplementedError: cannot reduce dim"
    | none => .error "KeyError"

/-- Transcription of the generic `Funsor.reduce` (src/funsor.py lines
262-281): `dims=None` means all dims; otherwise the requested dims are
intersected with the present ones — unknown names are dropped silently by
`frozenset(dims).intersection(self.dims)` — then each matching dim is
enumerated and folded away with `op`. -/
def genericReduce (f : PF) (op : ℤ → ℤ → ℤ) (dsel : Option (List String)) :
    Except String PF :=
  match dsel with
  | none => genericReduceGo op f.dims f
  | some r => genericReduceGo op (f.dims.filter (fun d => decide (d ∈ r))) f

/-- Generic `Funsor.contract` for a Function receiver: the swapped
positional arguments of src/funsor.py line 314 send `prod_op` into
`pointwise_binary`'s non-Funsor slot, so the receiver is wrapped by
`pointwise_unary` with an opaque transformation (the lazy evaluator never
runs during construction) and the wrapper is then reduced. -/
def PF.contract (f : PF) (tr : ((String → ℤ) → ℤ) → (String → ℤ) → ℤ)
    (sumOp : ℤ → ℤ → ℤ) (dsel : Option (List String)) : Except String PF :=
  genericReduce (f.pointwise_unary tr) sumOp dsel

/-- Concrete Function funsor with one finite dim `x`, used to exhibit the
silent skipping of an unknown reduction dim. -/
def c8_f : PF := ⟨["x"], [Size.fin 2], fun env => env "x"⟩

/-- Concrete Function funsor with a finite dim `t` and a continuous dim
`x`, used to exhibit the unsupported-reduction error. -/
def c8_g : PF :=
  ⟨["t", "x"], [Size.fin 2, Size.dom "real"], fun env => env "t" + env "x"⟩

/-- Symbolic funsor terms for the elimination engine. Modelled from the
spec: `funsor.terms` is not under src/ — a factor is an opaque atom with
named inputs, a `Number` has none, a binary `prod_op` application unions
the operands' inputs (first-seen order, as schema union does), and a
reduction removes the reduced dims from the inputs. -/
inductive MF
  | number (n : ℤ)
  | atom (tag : ℕ) (ins : List String)
  | prodF (op : OpT) (a b : MF)
  | reduceF (op : OpT) (a : MF) (vars : Finset String)
deriving DecidableEq

/-- Ordered input dims of a symbolic term (the `inputs` ordered dict of a
`funsor.terms` funsor). -/
def MF.inputsL : MF → List String
  | .number _ => []
  | .atom _ ins => ins.dedup
  | .prodF _ a b =>
    a.inputsL ++ b.inputsL.filter (fun d => decide (d ∉ a.inputsL))
  | .reduceF _ a vars => a.inputsL.filter (fun d => decide (d ∉ vars))

/-- Input dims of a symbolic term, as a set. -/
def MF.inputs (f : MF) : Finset String := f.inputsL.toFinset

/-- Node of the factor-variable bipartite incidence graph built by
`_partition` (src/funsor/sum_product.py lines 15-43). -/
inductive PNode
  | term (f : MF)
  | dim (d : String)
deriving DecidableEq

/-- Append `v` to the adjacency list of `k`, creating the entry at the
end when missing (`neighbors.setdefault(k, []).append(v)`). -/
def adjAppend (nb : List (PNode × List PNode)) (k v : PNode) :
    List (PNode × List PNode) :=
  match nb with
  | [] => [(k, [v])]
  | (k', vs) :: rest =>
    if k' = k then (k', vs ++ [v]) :: rest else (k', vs) :: adjAppend rest k v

/-- Build the bipartite graph between the terms and the vars of
`sum_vars` they mention. -/
def buildNeighbors (terms : List MF) (sumVars : Finset String) :
    List (PNode × List PNode) :=
  let init := terms.foldl
    (fun nb t =>
      if (nb.map Prod.fst).contains (PNode.term t) then nb
      else nb ++ [(PNode.term t, [])]) []
  terms.foldl
    (fun nb t =>
      (t.inputsL.filter (fun d => decide (d ∈ sumVars))).foldl
        (fun nb d =>
          adjAppend (adjAppend nb (PNode.term t) (PNode.dim d))
            (PNode.dim d) (PNode.term t)) nb)
    init

/-- Remove the entry of `k`, returning its adjacency list
(`neighbors.pop(k)`; the key is always present when this is reached). -/
def popKey (nb : List (PNode × List PNode)) (k : PNode) :
    Option (List PNode) × List (PNode × List PNode) :=
  match nb with
  | [] => (none, [])
  | (k', vs) :: rest =>
    if k' = k then (some vs, rest)
    else
      let r := popKey rest k
      (r.1, (k', vs) :: r.2)

/-- Pop the most recently inserted entry (`dict.popitem()` is LIFO). -/
def popLast (nb : List (PNode × List PNode)) :
    Option ((PNode × List PNode) × List (PNode × List PNode)) :=
  match nb.reverse with
  | [] => none
  | x :: restRev => some (x, restRev.reverse)

/-- Inner worklist loop of `_partition`: grow one connected component.
`comp` is the insertion-ordered component, `pending` the stack (Python
pops from its end), and each popped node surrenders its adjacency. -/
def growComponent : ℕ → List PNode → List PNode →
    List (PNode × List PNode) → List PNode × List (PNode × List PNode)
  | 0, comp, _, nb => (comp, nb)
  | fuel + 1, comp, pending, nb =>
    match pending.reverse with
    | [] => (comp, nb)
    | v :: restRev =>
      let r := popKey nb v
      let step := (r.1.getD []).foldl
        (fun (cp : List PNode × List PNode) v2 =>
          if cp.1.contains v2 then cp else (cp.1 ++ [v2], cp.2 ++ [v2]))
        (comp, restRev.reverse)
      growComponent fuel step.1 step.2 r.2

/-- Weight of the adjacency structure; a sufficient fuel bound for the
worklist loops, which strictly shrink it. -/
def nbWeight (nb : List (PNode × List PNode)) : ℕ :=
  nb.foldl (fun a p => a + 1 + p.2.length) 0

/-- Outer loop of `_partition`: repeatedly pop the last entry and close
its connected component. -/
def componentsLoop : ℕ → List (PNode × List PNode) → List (List PNode)
  | 0, _ => []
  | fuel + 1, nb =>
    match popLast nb with
    | none => []
    | some ((v, pending), nb1) =>
      let comp0 := pending.foldl
        (fun c x => if c.contains x then c else c ++ [x]) [v]
      let r := growComponent (pending.length + nbWeight nb1 + 1) comp0 pending nb1
      r.1 :: componentsLoop fuel r.2

/-- Transcription of `_partition` (src/funsor/sum_product.py lines
15-43): split the factors and their locally eliminable vars into
connected components of the bipartite incidence graph, keeping only
components that contain at least one term. -/
def _partition (terms : List MF) (sumVars : Finset String) :
    List (List MF × Finset String) :=
  let nb := buildNeighbors terms sumVars
  (componentsLoop (nb.length + 1) nb).filterMap (fun comp =>
    let cterms := comp.filterMap
      (fun n => match n with | .term f => some f | .dim _ => none)
    if cterms = [] then none
    else some (cterms,
      (comp.filterMap
        (fun n => match n with | .dim d => some d | .term _ => none)).toFinset))

/-- Append factor `f` to the bucket of `k`, creating the bucket at the
end when missing (`defaultdict(list)` keeps insertion order). -/
def insertAppend (bkts : List (Finset String × List MF)) (k : Finset String)
    (f : MF) : List (Finset String × List MF) :=
  match bkts with
  | [] => [(k, [f])]
  | (k', fs) :: rest =>
    if k' = k then (k', fs ++ [f]) :: rest
    else (k', fs) :: insertAppend rest k f

/-- One `var_to_ordinal` update:
`var_to_ordinal[var] = var_to_ordinal.get(var, ordinal) & ordinal`. -/
def updVarOrd (vo : List (String × Finset String)) (v : String)
    (ordinal : Finset String) : List (String × Finset String) :=
  match vo with
  | [] => [(v, ordinal)]
  | (v', o) :: rest =>
    if v' = v then (v', o ∩ ordinal) :: rest
    else (v', o) :: updVarOrd rest v ordinal

/-- Ordinal recorded for a variable (`var_to_ordinal[v]`; every variable
reached by the loop has an entry). -/
def lookupVO (vo : List (String × Finset String)) (v : String) :
    Finset String :=
  match vo with
  | [] => ∅
  | (v', o) :: rest => if v' = v then o else lookupVO rest v

/-- First phase of `partial_sum_product` (src/funsor/sum_product.py lines
61-67): bucket every factor under its ordinal — the plates among its
inputs — and intersect, for every sum variable, the ordinals of the
factors mentioning it. -/
def buildBuckets (plates sumVars : Finset String) (factors : List MF) :
    List (Finset String × List MF) × List (String × Finset String) :=
  factors.foldl
    (fun st f =>
      let ordinal := plates ∩ f.inputs
      (insertAppend st.1 ordinal f,
       (f.inputsL.filter (fun d => decide (d ∈ sumVars))).foldl
         (fun vo v => updVarOrd vo v ordinal) st.2))
    ([], [])

/-- Python `max(iterable, key=...)`: the first element attaining the
maximal key (only a strictly greater key replaces the running best). -/
def pyMax (key : α → ℕ) : List α → Option α
  | [] => none
  | x :: xs => some (xs.foldl (fun b a => if key b < key a then a else b) x)

/-- Bucket selection of the main loop (src/funsor/sum_product.py line
75): `max(ordinal_to_factors, key=len)` iterates the dict's keys in
insertion order and measures an ordinal by its number of plate dims. -/
def chooseLeaf (bkts : List (Finset String × List MF)) :
    Option (Finset String) :=
  pyMax (fun k => k.card) (bkts.map Prod.fst)

/-- Factors stored under an ordinal bucket. -/
def lookupB (bkts : List (Finset String × List MF)) (k : Finset String) :
    List MF :=
  match bkts with
  | [] => []
  | (k', fs) :: rest => if k' = k then fs else lookupB rest k

/-- Claim-side selector, following the spec's words: the ordinal bucket
"with the most associated factors", ties broken by insertion order. -/
def chooseLeafByFactorCount (bkts : List (Finset String × List MF)) :
    Option (Finset String) :=
  pyMax (fun k => (lookupB bkts k).length) (bkts.map Prod.fst)

/-- First element of a list attaining the maximal key, stated
structurally: the element survives unless a strictly larger key appears
later. -/
def firstMaxBy (key : α → ℕ) : List α → Option α
  | [] => none
  | x :: xs =>
    some (match firstMaxBy key xs with
          | none => x
          | some y => if key x < key y then y else x)

/-- Vars whose recorded ordinal equals `leaf` (`ordinal_to_vars[leaf]`). -/
def varsOfOrdinal (vo : List (String × Finset String))
    (leaf : Finset String) : Finset String :=
  ((vo.filter (fun p => decide (p.2 = leaf))).map Prod.fst).toFinset

/-- Fold of a binary operator over a component's factors
(`reduce(prod_op, group_factors)`; components are never empty, a
singleton is returned unwrapped). -/
def pyReduceProd (op : OpT) : List MF → MF
  | [] => .number (UNITS op)
  | f :: fs => fs.foldl (fun a b => MF.prodF op a b) f

/-- Erase the bucket of `k` (`ordinal_to_factors.pop(leaf)`). -/
def eraseB (bkts : List (Finset String × List MF)) (k : Finset String) :
    List (Finset String × List MF) :=
  match bkts with
  | [] => []
  | (k', fs) :: rest => if k' = k then rest else (k', fs) :: eraseB rest k

/-- The recomputed ordinal of a residual factor: the union of the
ordinals of its still-undetermined sum variables
(`frozenset().union(*(var_to_ordinal[v] for v in remaining_sum_vars))`). -/
def newPlatesOf (vo : List (String × Finset String)) (rsv : Finset String) :
    Finset String :=
  rsv.sup (lookupVO vo)

/-- Contracted factor of one connected component:
`reduce(prod_op, group_factors).reduce(sum_op, group_vars)`. -/
def compFactor (sumOp prodOp : OpT) (c : List MF × Finset String) : MF :=
  MF.reduceF sumOp (pyReduceProd prodOp c.1) c.2

/-- A component on which the elimination cannot make progress: its
contracted factor keeps sum variables whose recomputed ordinal equals the
bucket being processed (the guard of src/funsor/sum_product.py lines
86-87). -/
abbrev CompIntractable (sumOp prodOp : OpT) (sumVars : Finset String)
    (vo : List (String × Finset String)) (leaf : Finset String)
    (c : List MF × Finset String) : Prop :=
  sumVars ∩ (compFactor sumOp prodOp c).inputs ≠ ∅ ∧
    newPlatesOf vo (sumVars ∩ (compFactor sumOp prodOp c).inputs) = leaf

/-- Process the components of one bucket in order (the body of the `for`
loop at src/funsor/sum_product.py lines 78-89): contract each component,
then either emit a finished result factor (also `prod_op`-reducing the
eliminated plates of the current ordinal) or record a residual
re-insertion under the recomputed ordinal — or raise the intractable
error when that ordinal equals the current one. -/
def processComps (sumOp prodOp : OpT) (sumVars eliminate : Finset String)
    (vo : List (String × Finset String)) (leaf : Finset String) :
    List (List MF × Finset String) →
    Except String (List MF × List (Finset String × MF))
  | [] => .ok ([], [])
  | c :: rest =>
    if sumVars ∩ (compFactor sumOp prodOp c).inputs = ∅ then
      (processComps sumOp prodOp sumVars eliminate vo leaf rest).map
        (fun r =>
          (MF.reduceF prodOp (compFactor sumOp prodOp c)
            (leaf ∩ eliminate) :: r.1, r.2))
    else
      if newPlatesOf vo (sumVars ∩ (compFactor sumOp prodOp c).inputs) = leaf
      then .error "intractable!"
      else
        (processComps sumOp prodOp sumVars eliminate vo leaf rest).map
          (fun r =>
            (r.1,
             (newPlatesOf vo (sumVars ∩ (compFactor sumOp prodOp c).inputs),
              MF.reduceF prodOp (compFactor sumOp prodOp c)
                (leaf \ newPlatesOf vo
                  (sumVars ∩ (compFactor sumOp prodOp c).inputs))) :: r.2))

/-- Main loop of `partial_sum_product` (src/funsor/sum_product.py lines
73-91), with explicit fuel for the `while`: pick the bucket with the
longest ordinal, partition its factors into connected components,
contract each, and either emit a finished factor or re-insert the
residual under its recomputed ordinal. A raised error aborts the whole
run, discarding any results already collected. -/
def runPSP (sumOp prodOp : OpT) (sumVars eliminate : Finset String)
    (vo : List (String × Finset String)) :
    ℕ → List (Finset String × List MF) → Except String (List MF)
  | 0, _ => .error "fuel exhausted"
  | fuel + 1, bkts =>
    match chooseLeaf bkts with
    | none => .ok []
    | some leaf =>
      let comps := _partition (lookupB bkts leaf) (varsOfOrdinal vo leaf)
      match processComps sumOp prodOp sumVars eliminate vo leaf comps with
      | .error e => .error e
      | .ok r =>
        (runPSP sumOp prodOp sumVars eliminate vo fuel
          (r.2.foldl (fun b p => insertAppend b p.1 p.2)
            (eraseB bkts leaf))).map
          (fun rest => r.1 ++ rest)

/-- Transcription of `partial_sum_product` (src/funsor/sum_product.py
lines 46-91) over the symbolic term model, with explicit fuel for its
`while` loop. -/
def partial_sum_product (sumOp prodOp : OpT) (factors : List MF)
    (eliminate plates : Finset String) (fuel : ℕ) :
    Except String (List MF) :=
  let sumVars := eliminate \ plates
  let st := buildBuckets plates sumVars factors
  runPSP sumOp prodOp sumVars eliminate st.2 fuel st.1

/-- Transcription of `sum_product` (src/funsor/sum_product.py lines
94-102): run the partial algorithm, then fold all results together with
`prod_op`, seeded with `Number(UNITS[prod_op])`. -/
def sum_product (sumOp prodOp : OpT) (factors : List MF)
    (eliminate plates : Finset String) (fuel : ℕ) : Except String MF :=
  (partial_sum_product sumOp prodOp factors eliminate plates fuel).map
    (fun rs =>
      rs.foldl (fun a b => MF.prodF prodOp a b) (.number (UNITS prodOp)))

/-- One adjacent-pair contraction of the scan. Modelled from the spec for
the missing `funsor.torch.Tensor` operand algebra: with a 2-state
transition `f t p c`, the round's `x = trans(time=Slice(time, 0,
even_duration, 2, duration), curr="_drop")` gathers the even steps and
relabels `curr`, `y = trans(time=Slice(time, 1, even_duration, 2,
duration), prev="_drop")` the odd ones, and
`prod_op(x, y).reduce(sum_op, "_drop")` broadcasts the two over their
union dims and sums the shared `"_drop"` state out. -/
def pairContract (f : ℕ → ℕ → ℕ → ℤ) : ℕ → ℕ → ℕ → ℤ :=
  fun t p c => ∑ d ∈ Finset.range 2, f (2 * t) p d * f (2 * t + 1) d c

/-- Even prefix length `even_duration = duration // 2 * 2` of a round. -/
def evenDuration (n : ℕ) : ℕ := n / 2 * 2

/-- One round of the halving loop of `sequential_sum_product`
(src/funsor/sum_product.py lines 178-189): contract adjacent pairs over
the even prefix and, when the duration is odd, concatenate (`Cat`) the
leftover final step back onto the time axis. -/
def stepF (n : ℕ) (f : ℕ → ℕ → ℕ → ℤ) : ℕ → ℕ → ℕ → ℤ :=
  if evenDuration n < n then
    fun t p c =>
      if t < evenDuration n / 2 then pairContract f t p c else f (n - 1) p c
  else pairContract f

/-- Time size after one round of the halving loop. -/
def stepSize (n : ℕ) : ℕ :=
  evenDuration n / 2 + (if evenDuration n < n then 1 else 0)

/-- The `while trans.inputs[time].size > 1` loop with explicit fuel; the
size at least halves every round, so the initial size is enough fuel. -/
def seqLoop : ℕ → ℕ → (ℕ → ℕ → ℕ → ℤ) → ℕ → ℕ → ℕ → ℤ
  | 0, _, f => f
  | fuel + 1, n, f => if 1 < n then seqLoop fuel (stepSize n) (stepF n f) else f

/-- Transcription of `sequential_sum_product` (src/funsor/sum_product.py
lines 157-190) for `sum_op = add`, `prod_op = multiply` and 2-state
`prev` / `curr` dims: run the halving rounds on the time size, then
evaluate the remaining single step at `time = 0`. -/
def sequential_sum_product (n : ℕ) (f : ℕ → ℕ → ℕ → ℤ) : ℕ → ℕ → ℤ :=
  fun p c => seqLoop n n f 0 p c

/-- Explicit sequential chain contraction over 2-state dims: pairwise
product followed by sum-reduction over each shared intermediate state
(for size 4 this is the spec's
`Σ s1 s2 s3, T[0,s0,s1]·T[1,s1,s2]·T[2,s2,s3]·T[3,s3,s4]`). -/
def chainContract : ℕ → (ℕ → ℕ → ℕ → ℤ) → ℕ → ℕ → ℤ
  | 0, _, _, _ => 0
  | 1, f, p, c => f 0 p c
  | m + 2, f, p, c =>
    ∑ d ∈ Finset.range 2, chainContract (m + 1) f p d * f (m + 1) d c

/-- Modelled from the spec for the missing `funsor.torch.Tensor` and
`funsor.domains.bint`: the one-dimensional integer tensor that `Slice`
returns — a single input `name` of size `len(data)`, the data, and the
declared `dtype` bound. -/
structure STensor where
  name : String
  data : List ℤ
  dtype : ℤ
deriving DecidableEq

/-- Shared tail of `Slice`: reject a non-positive step, otherwise build
the `torch.arange(start, stop, step)` tensor with `dtype = bound`. -/
def sliceChecked (name : String) (start stop step bound : ℤ) :
    Except Unit STensor :=
  if step ≤ 0 then .error ()
  else .ok ⟨name, arangeZ start stop step, bound⟩

/-- Transcription of `Slice` (src/funsor/sum_product.py lines 131-154):
one to four positional arguments fill in `start`, `stop`, `step` and
`bound` (defaults 0, -, 1, `stop`); any other argument count raises
`ValueError`, as does a non-positive step. -/
def Slice (name : String) (args : List ℤ) : Except Unit STensor :=
  match args with
  | [stop] => sliceChecked name 0 stop 1 stop
  | [start, stop] => sliceChecked name start stop 1 stop
  | [start, stop, step] => sliceChecked name start stop step stop
  | [start, stop, step, bound] => sliceChecked name start stop step bound
  | _ => .error ()

/-- Factors exhibiting the bucket-selection heuristic: two plate-free
factors over the sum variable `a`, one factor inside the plate `p`. -/
def c3_factors : List MF := [.atom 0 ["a"], .atom 1 ["a"], .atom 2 ["p"]]

/-- Ordinal buckets built from `c3_factors` with `plates = {p}` and
`sum_vars = {a}`: the empty ordinal holds two factors, the ordinal `{p}`
holds one. -/
def c3_bkts : List (Finset String × List MF) :=
  (buildBuckets {"p"} {"a"} c3_factors).1

/-- Factors of an intractable elimination problem: a joint factor over
both plates and both sum variables, plus one factor per plate tying each
sum variable to a single plate (so `w1` has ordinal `{p}`, `w2` has
ordinal `{q}`, and the joint factor's residual ordinal is `{p, q}` — the
bucket being processed). -/
def c4_factors : List MF :=
  [.atom 0 ["p", "q", "w1", "w2"], .atom 1 ["p", "w1"], .atom 2 ["q", "w2"]]

/-- Dims to eliminate in the intractable example. -/
def c4_elim : Finset String := {"p", "q", "w1", "w2"}

/-- Plate dims of the intractable example. -/
def c4_plates : Finset String := {"p", "q"}

/-!
Theorems. Helper lemmas come first, then one theorem per claim (with a
witness or counterexample where required).
-/

theorem pyMax_foldl (key : α → ℕ) (xs : List α) :
    ∀ x, xs.foldl (fun b a => if key b < key a then a else b) x
      = (match firstMaxBy key xs with
         | none => x
         | some y => if key x < key y then y else x) := by
  induction xs with
  | nil => intro x; rfl
  | cons a as ih =>
    intro x
    rw [List.foldl_cons, ih]
    cases h : firstMaxBy key as with
    | none => simp [firstMaxBy, h]
    | some y =>
      simp only [firstMaxBy, h]
      split_ifs <;> first | rfl | omega

theorem pyMax_eq_firstMaxBy (key : α → ℕ) (l : List α) :
    pyMax key l = firstMaxBy key l := by
  cases l with
  | nil => rfl
  | cons x xs => simp only [pyMax, firstMaxBy, pyMax_foldl]

theorem processComps_error_of_intractable (sumOp prodOp : OpT)
    (sumVars eliminate : Finset String) (vo : List (String × Finset String))
    (leaf : Finset String) (comps : List (List MF × Finset String))
    (h : ∃ c ∈ comps, CompIntractable sumOp prodOp sumVars vo leaf c) :
    processComps sumOp prodOp sumVars eliminate vo leaf comps
      = .error "intractable!" := by
  induction comps with
  | nil => simp at h
  | cons c rest ih =>
    rcases h with ⟨c', hc', hint⟩
    rcases List.mem_cons.mp hc' with rfl | hmem
    · rcases hint with ⟨hne, heq⟩
      unfold processComps
      rw [if_neg hne, if_pos heq]
    · have hrec := ih ⟨c', hmem, hint⟩
      unfold processComps
      by_cases h1 : sumVars ∩ (compFactor sumOp prodOp c).inputs = ∅
      · rw [if_pos h1, hrec]; rfl
      · rw [if_neg h1]
        by_cases h2 :
            newPlatesOf vo (sumVars ∩ (compFactor sumOp prodOp c).inputs) = leaf
        · rw [if_pos h2]
        · rw [if_neg h2, hrec]; rfl

/-- C1: `Funsor.contract` does not equal
`pointwise_binary(other, prod_op).reduce(sum_op, dims)`. As written, the
source swaps the positional arguments (`self.pointwise_binary(prod_op,
other)`), so for the tensors `a = [1, 2]`, `b = [3, 4]` over the shared
dim `i`, `a.contract(add, mul, b)` raises (the callable lands in a
substitution slot) while the documented composition is the scalar
`1·3 + 2·4 = 11` over no dims. -/
theorem C1_contract_swapped_arguments :
    c1_a.contract OpT.add c1_b none = .error "NotImplementedError"
    ∧ ((c1_a.pointwise_binary c1_b (· * ·)).reduce OpT.add none).data [] = 11
    ∧ ((c1_a.pointwise_binary c1_b (· * ·)).reduce OpT.add none).dims = [] :=
  ⟨rfl, by decide, rfl⟩

/-- C2: the numeric branch of `Variable.__call__` executes a bare
`return`, producing Python `None` instead of the substituted value `3`;
the rename branch returns a fresh `Variable` of the same domain through
`var`, and a funsor substitution value is returned as is — those two
branches behave as the claim states. -/
theorem C2_variable_call_numeric_returns_none :
    Variable.call "x" (Size.dom "real") [] [] [("x", VSub.num 3)]
      = .ok (VCallRes.pynone, [])
    ∧ Variable.call "x" (Size.dom "real") [] [VSub.str "y"] []
      = .ok (.fsor (.vari "y" (Size.dom "real")),
             [(("y", Size.dom "real"), FVal.vari "y" (Size.dom "real"))])
    ∧ Variable.call "x" (Size.dom "real") [] [VSub.fsor (.ofunsor 7)] []
      = .ok (.fsor (.ofunsor 7), []) :=
  ⟨rfl, rfl, rfl⟩

/-- C3 as stated is false: with buckets `[(∅, [f0, f1]), ({p}, [f2])]` the
loop's `max(ordinal_to_factors, key=len)` measures the ordinal keys, so
it picks `{p}` (one factor) over `∅` (two factors) — not the bucket with
the most associated factors. -/
theorem C3_counterexample_selection :
    chooseLeaf c3_bkts = some {"p"}
    ∧ chooseLeafByFactorCount c3_bkts = some ∅
    ∧ chooseLeaf c3_bkts ≠ chooseLeafByFactorCount c3_bkts := by
  refine ⟨by decide, by decide, by decide⟩

/-- C3 amended: in every iteration, the bucket chosen is the first one
(in insertion order) whose ordinal contains the most plate dims — the
most specific plate context — with ties broken by insertion order. -/
theorem C3_amended_chooses_most_specific_ordinal :
    ∀ bkts : List (Finset String × List MF),
      chooseLeaf bkts = firstMaxBy (fun k => k.card) (bkts.map Prod.fst) :=
  fun bkts =>
    pyMax_eq_firstMaxBy (fun k : Finset String => k.card) (bkts.map Prod.fst)

/-- C4: whenever the bucket being processed contains a connected
component whose contracted residual factor still has sum variables and
their recomputed ordinal equals the current ordinal, the main loop
raises the fatal `"intractable!"` error; the `Except.error` result
carries no partial results. -/
theorem C4_intractable_elimination_raises (sumOp prodOp : OpT)
    (sumVars eliminate : Finset String) (vo : List (String × Finset String))
    (fuel : ℕ) (bkts : List (Finset String × List MF)) (leaf : Finset String)
    (hfuel : 0 < fuel) (hleaf : chooseLeaf bkts = some leaf)
    (hoff : ∃ c ∈ _partition (lookupB bkts leaf) (varsOfOrdinal vo leaf),
        CompIntractable sumOp prodOp sumVars vo leaf c) :
    runPSP sumOp prodOp sumVars eliminate vo fuel bkts
      = .error "intractable!" := by
  cases fuel with
  | zero => exact absurd hfuel (by omega)
  | succ k =>
    unfold runPSP
    rw [hleaf]
    simp only [processComps_error_of_intractable sumOp prodOp sumVars eliminate
      vo leaf _ hoff]

/-- Witness for C4 at the concrete intractable example: the first chosen
bucket is `{p, q}`, its only component's residual keeps `{w1, w2}` whose
ordinals union back to `{p, q}`, and the whole run — equal to
`partial_sum_product` on those factors — errors out. -/
theorem C4_intractable_elimination_raises_witness :
    (0 : ℕ) < 5
    ∧ chooseLeaf (buildBuckets c4_plates (c4_elim \ c4_plates) c4_factors).1
        = some {"p", "q"}
    ∧ runPSP .add .mul (c4_elim \ c4_plates) c4_elim
        (buildBuckets c4_plates (c4_elim \ c4_plates) c4_factors).2 5
        (buildBuckets c4_plates (c4_elim \ c4_plates) c4_factors).1
        = .error "intractable!"
    ∧ partial_sum_product .add .mul c4_factors c4_elim c4_plates 5
        = .error "intractable!" := by
  refine ⟨by decide, by rfl, ?_, by rfl⟩
  exact C4_intractable_elimination_raises .add .mul (c4_elim \ c4_plates)
    c4_elim (buildBuckets c4_plates (c4_elim \ c4_plates) c4_factors).2 5
    (buildBuckets c4_plates (c4_elim \ c4_plates) c4_factors).1 {"p", "q"}
    (by decide) (by rfl) (by decide)

/-- C5: with any positive fuel, `sum_product` over an empty factor
collection returns `Number(UNITS[prod_op])` — the identity element of
`prod_op` — and in general it is the `prod_op`-fold of
`partial_sum_product`'s results seeded with that identity. -/
theorem C5_sum_product_fold_with_identity (sumOp prodOp : OpT)
    (eliminate plates : Finset String) (fuel : ℕ) (hf : 0 < fuel) :
    sum_product sumOp prodOp [] eliminate plates fuel
      = .ok (.number (UNITS prodOp))
    ∧ ∀ factors : List MF,
        sum_product sumOp prodOp factors eliminate plates fuel
          = (partial_sum_product sumOp prodOp factors eliminate plates
              fuel).map
              (fun rs => rs.foldl (fun a b => MF.prodF prodOp a b)
                (.number (UNITS prodOp))) := by
  cases fuel with
  | zero => exact absurd hf (by omega)
  | succ k => exact ⟨rfl, fun factors => rfl⟩

/-- Witness for C5 at `prod_op = mul`, fuel 1: the empty collection
contracts to `Number(1)`. -/
theorem C5_sum_product_fold_with_identity_witness :
    (0 : ℕ) < 1
    ∧ sum_product .add .mul [] {"a"} ∅ 1 = .ok (.number 1) :=
  ⟨Nat.one_pos, (C5_sum_product_fold_with_identity .add .mul {"a"} ∅ 1
    Nat.one_pos).1⟩

/-- C6: for every time size in 1..5 and every 2-state transition tensor
`f t p c`, the parallel scan `sequential_sum_product(add, mul, ...)`
equals the explicit sequential chain contraction for every boundary pair
`(p, c)`; sizes 1, 3 and 5 exercise the `Cat`-leftover path. -/
theorem C6_sequential_sum_product_matches_chain :
    (∀ (f : ℕ → ℕ → ℕ → ℤ) (p c : ℕ),
      sequential_sum_product 1 f p c = chainContract 1 f p c)
    ∧ (∀ (f : ℕ → ℕ → ℕ → ℤ) (p c : ℕ),
      sequential_sum_product 2 f p c = chainContract 2 f p c)
    ∧ (∀ (f : ℕ → ℕ → ℕ → ℤ) (p c : ℕ),
      sequential_sum_product 3 f p c = chainContract 3 f p c)
    ∧ (∀ (f : ℕ → ℕ → ℕ → ℤ) (p c : ℕ),
      sequential_sum_product 4 f p c = chainContract 4 f p c)
    ∧ (∀ (f : ℕ → ℕ → ℕ → ℤ) (p c : ℕ),
      sequential_sum_product 5 f p c = chainContract 5 f p c) := by
  refine ⟨fun f p c => ?_, fun f p c => ?_, fun f p c => ?_,
    fun f p c => ?_, fun f p c => ?_⟩
  · simp [sequential_sum_product, seqLoop, chainContract]
  · simp [sequential_sum_product, seqLoop, stepF, stepSize, evenDuration,
      pairContract, chainContract, Finset.sum_range_succ]
  · simp [sequential_sum_product, seqLoop, stepF, stepSize, evenDuration,
      pairContract, chainContract, Finset.sum_range_succ]
  · simp [sequential_sum_product, seqLoop, stepF, stepSize, evenDuration,
      pairContract, chainContract, Finset.sum_range_succ]
    ring
  · simp [sequential_sum_product, seqLoop, stepF, stepSize, evenDuration,
      pairContract, chainContract, Finset.sum_range_succ]
    ring

theorem arangeZ_getD (s t st : ℤ) (i : ℕ) (hi : i < (arangeZ s t st).length) :
    (arangeZ s t st).getD i 0 = s + st * (i : ℤ) := by
  unfold arangeZ at hi ⊢
  rw [List.getD_eq_getElem _ 0 hi, List.getElem_map, List.getElem_range]

/-- C9: `Slice(name, *args)` raises `ValueError` for every argument count
outside 1..4 and for every parsed non-positive step; valid arguments
yield the tensor over the single dim `name` whose data enumerates
`range(start, stop, step)` (value `start + step·i` at index `i`) with
`dtype` equal to the declared bound. -/
theorem C9_slice_validation (name : String) :
    (∀ args : List ℤ, args.length = 0 ∨ 5 ≤ args.length →
      Slice name args = .error ())
    ∧ (∀ s t st : ℤ, st ≤ 0 → Slice name [s, t, st] = .error ())
    ∧ (∀ s t st b : ℤ, st ≤ 0 → Slice name [s, t, st, b] = .error ())
    ∧ (∀ t : ℤ, Slice name [t] = .ok ⟨name, arangeZ 0 t 1, t⟩)
    ∧ (∀ s t : ℤ, Slice name [s, t] = .ok ⟨name, arangeZ s t 1, t⟩)
    ∧ (∀ s t st : ℤ, 0 < st →
        Slice name [s, t, st] = .ok ⟨name, arangeZ s t st, t⟩)
    ∧ (∀ s t st b : ℤ, 0 < st →
        Slice name [s, t, st, b] = .ok ⟨name, arangeZ s t st, b⟩)
    ∧ (∀ s t st : ℤ, ∀ i : ℕ, i < (arangeZ s t st).length →
        (arangeZ s t st).getD i 0 = s + st * (i : ℤ)) := by
  refine ⟨?_, ?_, ?_, ?_, ?_, ?_, ?_, ?_⟩
  · intro args h
    match args, h with
    | [], _ => rfl
    | a :: b :: c :: d :: e :: rest, h => rfl
    | [a], h => simp at h
    | [a, b], h => simp at h
    | [a, b, c], h => simp at h
    | [a, b, c, d], h => simp at h
  · intro s t st h
    show sliceChecked name s t st t = .error ()
    unfold sliceChecked
    rw [if_pos h]
  · intro s t st b h
    show sliceChecked name s t st b = .error ()
    unfold sliceChecked
    rw [if_pos h]
  · intro t; rfl
  · intro s t; rfl
  · intro s t st h
    show sliceChecked name s t st t = _
    unfold sliceChecked
    rw [if_neg (by omega)]
  · intro s t st b h
    show sliceChecked name s t st b = _
    unfold sliceChecked
    rw [if_neg (by omega)]
  · exact fun s t st i hi => arangeZ_getD s t st i hi

/-- Witness for C9: the empty call and a negative step raise; a valid
two-argument call enumerates its range. -/
theorem C9_slice_validation_witness :
    Slice "t" ([] : List ℤ) = .error ()
    ∧ (-1 : ℤ) ≤ 0
    ∧ Slice "t" [0, 4, -1] = .error ()
    ∧ Slice "t" [2, 5] = .ok ⟨"t", arangeZ 2 5 1, 5⟩
    ∧ (0 : ℤ) < 2
    ∧ Slice "t" [1, 6, 2, 9] = .ok ⟨"t", arangeZ 1 6 2, 9⟩ :=
  ⟨(C9_slice_validation "t").1 [] (Or.inl rfl), by decide,
   (C9_slice_validation "t").2.1 0 4 (-1) (by decide),
   (C9_slice_validation "t").2.2.2.2.1 2 5, by decide,
   (C9_slice_validation "t").2.2.2.2.2.2.1 1 6 2 9 (by decide)⟩

theorem lookupReg_append (l1 l2 : Registry) (k : String × Size) :
    lookupReg (l1 ++ l2) k
      = (match lookupReg l1 k with
         | some v => some v
         | none => lookupReg l2 k) := by
  induction l1 with
  | nil => rfl
  | cons e rest ih =>
    obtain ⟨k', v⟩ := e
    simp only [List.cons_append, lookupReg]
    by_cases h : k' = k
    · rw [if_pos h, if_pos h]
    · rw [if_neg h, if_neg h]; exact ih

/-- C10: `var(name, n)` for a finite integer size returns the `Tensor`
funsor over the single dim `name` holding `arange(n)` — the values
`0..n-1`, not a symbolic `Variable` — a cache miss stores the result
under the key, a cache hit returns the stored object unchanged, and a
repeated call with the same key therefore returns the identical cached
object while its entry remains in the registry. -/
theorem C10_var_finite_tensor_and_cache (reg : Registry) (name : String)
    (n : ℕ) :
    (lookupReg reg (name, .fin n) = none →
        var reg name (.fin n)
          = (FVal.tens (arangePT name n),
             reg ++ [((name, .fin n), FVal.tens (arangePT name n))]))
    ∧ (∀ v, lookupReg reg (name, .fin n) = some v →
        var reg name (.fin n) = (v, reg))
    ∧ var (var reg name (.fin n)).2 name (.fin n)
        = ((var reg name (.fin n)).1, (var reg name (.fin n)).2)
    ∧ (∀ i : ℕ, i < n → (arangePT name n).data [(i : ℤ)] = (i : ℤ))
    ∧ (arangePT name n).dims = [name] := by
  refine ⟨?_, ?_, ?_, fun i hi => rfl, rfl⟩
  · intro h; unfold var; rw [h]
  · intro v h; unfold var; rw [h]
  · cases h : lookupReg reg (name, .fin n) with
    | some v => simp [var, h]
    | none => simp [var, h, lookupReg_append, lookupReg]

/-- Witness for C10 at `("x", 2)` and the empty registry. -/
theorem C10_var_finite_tensor_and_cache_witness :
    lookupReg [] ("x", Size.fin 2) = none
    ∧ var [] "x" (.fin 2)
        = (FVal.tens (arangePT "x" 2),
           [(("x", Size.fin 2), FVal.tens (arangePT "x" 2))])
    ∧ (1 : ℕ) < 2
    ∧ (arangePT "x" 2).data [(1 : ℤ)] = 1 :=
  ⟨rfl, (C10_var_finite_tensor_and_cache [] "x" 2).1 rfl, by decide,
   (C10_var_finite_tensor_and_cache [] "x" 2).2.2.2.1 1 (by decide)⟩


theorem lookupA_filter_ne (l : List (String × σ)) (d0 d : String)
    (hd : d ≠ d0) :
    lookupA (l.filter (fun q => decide (q.1 ≠ d0))) d = lookupA l d := by
  induction l with
  | nil => rfl
  | cons e rest ih =>
    obtain ⟨k, v⟩ := e
    by_cases hk : k = d0
    · subst hk
      rw [List.filter_cons, if_neg (by simp)]
      rw [ih]
      simp only [lookupA]
      rw [if_neg (fun h => hd h.symm)]
    · rw [List.filter_cons, if_pos (by simpa using hk)]
      simp only [lookupA]
      by_cases hkd : k = d
      · rw [if_pos hkd, if_pos hkd]
      · rw [if_neg hkd, if_neg hkd]; exact ih

theorem zip_filter_ne (d0 : String) :
    ∀ (l1 : List String) (l2 : List σ),
      (l1.filter (fun x => decide (x ≠ d0))).zip
        (((l1.zip l2).filter (fun q => decide (q.1 ≠ d0))).map Prod.snd)
        = (l1.zip l2).filter (fun q => decide (q.1 ≠ d0)) := by
  intro l1
  induction l1 with
  | nil => intro l2; rfl
  | cons a t1 ih =>
    intro l2
    cases l2 with
    | nil => simp
    | cons b t2 =>
      by_cases hp : a = d0
      · subst hp
        simp only [List.zip_cons_cons, List.filter_cons]
        rw [if_neg (by simp), if_neg (by simp)]
        exact ih t2
      · simp only [List.zip_cons_cons, List.filter_cons]
        rw [if_pos (by simpa using hp), if_pos (by simpa using hp)]
        simp only [List.map_cons, List.zip_cons_cons]
        rw [ih t2]

theorem filter_ne_zip_length (d0 : String) :
    ∀ (l1 : List String) (l2 : List σ), l1.length = l2.length →
      (l1.filter (fun x => decide (x ≠ d0))).length
        = (((l1.zip l2).filter (fun q => decide (q.1 ≠ d0))).map
            Prod.snd).length := by
  intro l1
  induction l1 with
  | nil => intro l2 h; rfl
  | cons a t1 ih =>
    intro l2 h
    cases l2 with
    | nil => simp at h
    | cons b t2 =>
      simp only [List.length_cons, Nat.succ.injEq] at h
      by_cases hp : a = d0
      · subst hp
        simp only [List.zip_cons_cons, List.filter_cons]
        rw [if_neg (by simp), if_neg (by simp)]
        exact ih t2 h
      · simp only [List.zip_cons_cons, List.filter_cons]
        rw [if_pos (by simpa using hp), if_pos (by simpa using hp)]
        simp only [List.map_cons, List.length_cons]
        rw [ih t2 h]

theorem lookupA_zip_isSome :
    ∀ (l1 : List String) (l2 : List σ), l1.length = l2.length →
      ∀ d ∈ l1, ∃ s, lookupA (l1.zip l2) d = some s := by
  intro l1
  induction l1 with
  | nil => intro l2 h d hd; simp at hd
  | cons a t1 ih =>
    intro l2 h d hd
    cases l2 with
    | nil => simp at h
    | cons b t2 =>
      simp only [List.length_cons, Nat.succ.injEq] at h
      by_cases had : a = d
      · exact ⟨b, by simp only [List.zip_cons_cons, lookupA]; rw [if_pos had]⟩
      · rcases List.mem_cons.mp hd with rfl | hmem
        · exact absurd rfl had
        · rcases ih t2 h d hmem with ⟨s, hs⟩
          exact ⟨s, by
            simp only [List.zip_cons_cons, lookupA]
            rw [if_neg had]; exact hs⟩

theorem lookupA_mem :
    ∀ (l : List (String × σ)) (d : String) (v : σ),
      lookupA l d = some v → (d, v) ∈ l := by
  intro l
  induction l with
  | nil => intro d v h; simp [lookupA] at h
  | cons e rest ih =>
    intro d v h
    obtain ⟨k, w⟩ := e
    simp only [lookupA] at h
    by_cases hk : k = d
    · rw [if_pos hk] at h
      subst hk
      cases h
      exact .head _
    · rw [if_neg hk] at h
      exact .tail _ (ih d v h)

theorem foldl_pb_keeps (op : ℤ → ℤ → ℤ) :
    ∀ (l : List PF) (a : PF), (∀ b ∈ l, b.dims = a.dims) →
      (l.foldl (fun x y => x.pointwise_binary y op) a).dims = a.dims ∧
      (l.foldl (fun x y => x.pointwise_binary y op) a).shape = a.shape := by
  intro l
  induction l with
  | nil => exact fun a _ => ⟨rfl, rfl⟩
  | cons b t ih =>
    intro a h
    have hb : b.dims = a.dims := h b (.head _)
    have hstep : (a.pointwise_binary b op).dims = a.dims ∧
        (a.pointwise_binary b op).shape = a.shape := by
      unfold PF.pointwise_binary
      rw [if_pos hb.symm]
      exact ⟨rfl, rfl⟩
    rw [List.foldl_cons]
    have hrest := ih (a.pointwise_binary b op)
      (fun c hc => (h c (.tail _ hc)).trans hstep.1.symm)
    exact ⟨hrest.1.trans hstep.1, hrest.2.trans hstep.2⟩



theorem PF.subst_dims (f : PF) (d0 : String) (i : ℤ) :
    (f.subst d0 i).dims = f.dims.filter (fun x => decide (x ≠ d0)) := rfl

theorem PF.subst_zip (f : PF) (d0 : String) (i : ℤ) :
    (f.subst d0 i).dims.zip (f.subst d0 i).shape
      = (f.dims.zip f.shape).filter (fun q => decide (q.1 ≠ d0)) :=
  zip_filter_ne d0 f.dims f.shape

theorem PF.subst_schema (f : PF) (d0 : String) (i : ℤ) (d : String)
    (hd : d ≠ d0) :
    (f.subst d0 i).schema d = f.schema d := by
  unfold PF.schema
  rw [PF.subst_zip, lookupA_filter_ne _ _ _ hd]

theorem PF.subst_len (f : PF) (d0 : String) (i : ℤ)
    (h : f.dims.length = f.shape.length) :
    (f.subst d0 i).dims.length = (f.subst d0 i).shape.length :=
  filter_ne_zip_length d0 f.dims f.shape h

theorem PF.subst_noZero (f : PF) (d0 : String) (i : ℤ)
    (hz : ∀ q ∈ f.dims.zip f.shape, q.2 ≠ Size.fin 0) :
    ∀ q ∈ (f.subst d0 i).dims.zip (f.subst d0 i).shape,
      q.2 ≠ Size.fin 0 := by
  intro q hq
  rw [PF.subst_zip] at hq
  exact hz q (List.mem_of_mem_filter hq)

theorem genericReduceGo_dom_error (op : ℤ → ℤ → ℤ) :
    ∀ (ds : List String) (f : PF),
      f.dims.Nodup → f.dims.length = f.shape.length → ds.Nodup →
      (∀ d ∈ ds, d ∈ f.dims) →
      (∀ q ∈ f.dims.zip f.shape, q.2 ≠ Size.fin 0) →
      (∃ d ∈ ds, ∃ s, f.schema d = some (.dom s)) →
      genericReduceGo op ds f
        = .error "NotImplementedError: cannot reduce dim" := by
  intro ds
  induction ds with
  | nil => intro f _ _ _ _ _ hex; simp at hex
  | cons d0 rest ih =>
    intro f hnd hlen hdsnd hsub hz hex
    cases hs : f.schema d0 with
    | none =>
      rcases lookupA_zip_isSome f.dims f.shape hlen d0 (hsub d0 (.head _))
        with ⟨s, hsome⟩
      unfold PF.schema at hs
      rw [hs] at hsome
      cases hsome
    | some sz =>
      cases sz with
      | dom s =>
        unfold genericReduceGo
        rw [hs]
      | fin n =>
        cases n with
        | zero =>
          have hmem := lookupA_mem _ _ _
            (show lookupA (f.dims.zip f.shape) d0 = some (Size.fin 0) from hs)
          exact absurd rfl (hz (d0, Size.fin 0) hmem)
        | succ m =>
          unfold genericReduceGo
          rw [hs]
          have hkeep := foldl_pb_keeps op
            ((List.range m).map (fun i => f.subst d0 ((i : ℤ) + 1)))
            (f.subst d0 0)
            (fun b hb => by rcases List.mem_map.mp hb with ⟨j, hj, rfl⟩; rfl)
          apply ih
          · rw [hkeep.1, PF.subst_dims]
            exact hnd.filter _
          · rw [hkeep.1, hkeep.2]
            exact PF.subst_len f d0 0 hlen
          · exact hdsnd.of_cons
          · intro d hd
            rw [hkeep.1, PF.subst_dims, List.mem_filter]
            refine ⟨hsub d (.tail _ hd), ?_⟩
            simp only [decide_eq_true_eq]
            exact fun hdd => (List.nodup_cons.mp hdsnd).1 (hdd ▸ hd)
          · intro q hq
            rw [hkeep.1, hkeep.2] at hq
            exact PF.subst_noZero f d0 0 hz q hq
          · rcases hex with ⟨d, hd, s, hds⟩
            rcases List.mem_cons.mp hd with rfl | hmem
            · rw [hs] at hds; cases hds
            · have hdd0 : d ≠ d0 :=
                fun h => (List.nodup_cons.mp hdsnd).1 (h ▸ hmem)
              refine ⟨d, hmem, s, ?_⟩
              have hsch : PF.schema
                  (((List.range m).map (fun i => f.subst d0 ((i : ℤ) + 1))).foldl
                    (fun a b => a.pointwise_binary b op) (f.subst d0 0)) d
                  = PF.schema (f.subst d0 0) d := by
                unfold PF.schema
                rw [hkeep.1, hkeep.2]
              rw [hsch, PF.subst_schema f d0 0 d hdd0]
              exact hds

/-- C8 amended: requested dims with a continuous (non-finite) domain
among the funsor's dims make the generic `reduce` fail with the
unsupported-reduction error (`cannot reduce dim`), provided every finite
dim is non-empty; but requested dims that are not among the funsor's dims
are silently dropped by the intersection, not an error. -/
theorem C8_amended_reduce_error_behaviour :
    (∀ (f : PF) (op : ℤ → ℤ → ℤ) (req : List String),
        (∀ d ∈ f.dims, d ∉ req) → genericReduce f op (some req) = .ok f)
    ∧ (∀ (f : PF) (op : ℤ → ℤ → ℤ) (req : List String) (d s : String),
        f.dims.Nodup → f.dims.length = f.shape.length →
        (∀ q ∈ f.dims.zip f.shape, q.2 ≠ Size.fin 0) →
        d ∈ req → d ∈ f.dims → f.schema d = some (.dom s) →
        genericReduce f op (some req)
          = .error "NotImplementedError: cannot reduce dim") := by
  constructor
  · intro f op req h
    show genericReduceGo op (f.dims.filter (fun d => decide (d ∈ req))) f
      = .ok f
    rw [List.filter_eq_nil_iff.mpr (fun a ha => by simpa using h a ha)]
    rfl
  · intro f op req d s hnd hlen hz hdreq hdmem hds
    show genericReduceGo op (f.dims.filter (fun d => decide (d ∈ req))) f = _
    apply genericReduceGo_dom_error
    · exact hnd
    · exact hlen
    · exact hnd.filter _
    · exact fun d' hd' => (List.mem_filter.mp hd').1
    · exact hz
    · exact ⟨d, List.mem_filter.mpr ⟨hdmem, by simpa using hdreq⟩, s, hds⟩

/-- Witness for the amended C8: reducing the unknown dim `y` of `c8_f` is
a silent no-op; reducing the continuous dim `x` of `c8_g` raises. -/
theorem C8_amended_reduce_error_behaviour_witness :
    (∀ d ∈ c8_f.dims, d ∉ ["y"])
    ∧ genericReduce c8_f (· + ·) (some ["y"]) = .ok c8_f
    ∧ c8_g.dims.Nodup
    ∧ c8_g.schema "x" = some (.dom "real")
    ∧ genericReduce c8_g (· + ·) (some ["x"])
        = .error "NotImplementedError: cannot reduce dim" := by
  refine ⟨by decide, C8_amended_reduce_error_behaviour.1 c8_f (· + ·) ["y"] (by decide),
    by decide, by rfl, ?_⟩
  exact C8_amended_reduce_error_behaviour.2 c8_g (· + ·) ["x"] "x" "real" (by decide) (by decide)
    (by decide) (by decide) (by decide) (by rfl)

/-- C8 as stated is false for unknown dims: reducing over a dim the
funsor does not have returns the funsor unchanged — the requested set is
intersected with the present dims and the unknown name silently dropped —
instead of raising an unsupported-reduction error. -/
theorem C8_counterexample_unknown_dim_skipped :
    genericReduce c8_f (· + ·) (some ["y"]) = .ok c8_f := rfl


theorem idxOf?_spec :
    ∀ (l : List String) (d : String) (pos : ℕ), idxOf? l d = some pos →
      pos < l.length ∧ l.getD pos "" = d := by
  intro l
  induction l with
  | nil => intro d pos h; cases h
  | cons x rest ih =>
    intro d pos h
    unfold idxOf? at h
    by_cases hx : x = d
    · rw [if_pos hx] at h
      cases h
      exact ⟨by simp, hx⟩
    · rw [if_neg hx] at h
      cases hp : idxOf? rest d with
      | none => rw [hp] at h; cases h
      | some q =>
        rw [hp] at h
        simp only [Option.map_some'] at h
        cases h
        rcases ih d q hp with ⟨h1, h2⟩
        exact ⟨by simpa using h1, by simpa using h2⟩

theorem list_set_self (l : List String) :
    ∀ (pos : ℕ) (a : String), pos < l.length → l.getD pos "" = a →
      l.set pos a = l := by
  induction l with
  | nil => intro pos a h; simp at h
  | cons x rest ih =>
    intro pos a hlt hget
    cases pos with
    | zero =>
      rw [List.getD_cons_zero] at hget
      rw [List.set_cons_zero, hget]
    | succ q =>
      simp only [List.length_cons, Nat.succ_lt_succ_iff] at hlt
      simp only [List.getD_cons_succ] at hget
      simp [List.set_cons_succ, ih q a hlt hget]

theorem unionDims_nodup (d1 d2 : List String) (h1 : d1.Nodup)
    (h2 : d2.Nodup) : (unionDims d1 d2).Nodup := by
  unfold unionDims
  refine List.Nodup.append h1 (h2.filter _) ?_
  intro a ha1 ha2
  rcases List.mem_filter.mp ha2 with ⟨_, hdec⟩
  exact absurd ha1 (by simpa using hdec)

theorem unionSizes_length (d1 : List String) (s1 : List σ) (d2 : List String)
    (s2 : List σ) (dflt : σ) :
    (unionSizes d1 s1 d2 s2 dflt).length = (unionDims d1 d2).length :=
  List.length_map _ _

theorem eraseIdx_keeps_inv (dims : List String) (shape : List ℕ) (pos : ℕ)
    (hnd : dims.Nodup) (hlen : dims.length = shape.length) :
    (dims.eraseIdx pos).Nodup ∧
      (dims.eraseIdx pos).length = (shape.eraseIdx pos).length := by
  refine ⟨(List.eraseIdx_sublist dims pos).nodup hnd, ?_⟩
  rw [List.length_eraseIdx, List.length_eraseIdx, hlen]



theorem list_decomp (l : List String) :
    ∀ (pos : ℕ), pos < l.length →
      l = l.take pos ++ l.getD pos "" :: l.drop (pos + 1) := by
  induction l with
  | nil => intro pos h; simp at h
  | cons x rest ih =>
    intro pos h
    cases pos with
    | zero => simp
    | succ q =>
      simp only [List.length_cons, Nat.succ_lt_succ_iff] at h
      simp only [List.take_succ_cons, List.getD_cons_succ, List.drop_succ_cons]
      rw [List.cons_append]
      congr 1
      exact ih q h

theorem substituteTensor_ok_inv (t u : PT) (dim : String) (pos : ℕ) (r : PT)
    (hit : InvT t) (hiu : InvT u) (hpos : pos < t.dims.length)
    (hget : t.dims.getD pos "" = dim)
    (h : t.substituteTensor dim pos u = .ok r) : InvT r := by
  unfold PT.substituteTensor at h
  by_cases hany : u.dims.any (fun d => decide (d ≠ dim ∧ d ∈ t.dims)) = true
  · rw [if_pos hany] at h; cases h
  · rw [if_neg hany] at h
    cases h
    have hd : ∀ x ∈ u.dims, x = dim ∨ x ∉ t.dims := by
      intro x hx
      by_contra hc
      push_neg at hc
      exact hany (List.any_eq_true.mpr ⟨x, hx, by simpa using hc⟩)
    have hdec := list_decomp t.dims pos hpos
    rw [hget] at hdec
    obtain ⟨hnd, hlen⟩ := hit
    have hnd2 : (t.dims.take pos ++ dim :: t.dims.drop (pos + 1)).Nodup := by
      rw [← hdec]; exact hnd
    rcases List.nodup_append.mp hnd2 with ⟨hpre, hcons, hdisj⟩
    rcases List.nodup_cons.mp hcons with ⟨hdimpost, hpost⟩
    constructor
    · rw [List.append_assoc, List.nodup_append]
      refine ⟨hpre, ?_, ?_⟩
      · rw [List.nodup_append]
        refine ⟨hiu.1, hpost, ?_⟩
        intro a hau hap
        rcases hd a hau with rfl | hnt
        · exact hdimpost hap
        · refine hnt ?_
          rw [hdec]
          exact List.mem_append.mpr (Or.inr (List.mem_cons.mpr (Or.inr hap)))
      · intro a hap hain
        rcases List.mem_append.mp hain with hau | hapost
        · rcases hd a hau with rfl | hnt
          · exact hdisj hap (List.mem_cons.mpr (Or.inl rfl))
          · refine hnt ?_
            rw [hdec]
            exact List.mem_append.mpr (Or.inl hap)
        · exact hdisj hap (List.mem_cons.mpr (Or.inr hapost))
    · simp only [List.length_append, List.length_cons, List.length_take,
        List.length_drop]
      have := hiu.2
      omega

theorem substitute_ok_inv (t : PT) (dim : String) (v : CallV) (r : PT)
    (hit : InvT t) (hiv : InvV v)
    (h : t.substitute dim v = .ok r) : InvT r := by
  unfold PT.substitute at h
  cases hp : idxOf? t.dims dim with
  | none => rw [hp] at h; cases h
  | some pos =>
    rw [hp] at h
    rcases idxOf?_spec t.dims dim pos hp with ⟨hpos, hget⟩
    cases v with
    | num n =>
      cases h
      exact ⟨(eraseIdx_keeps_inv t.dims t.shape pos hit.1 hit.2).1,
             (eraseIdx_keeps_inv t.dims t.shape pos hit.1 hit.2).2⟩
    | slice s0 s1 s2 =>
      replace h : (if s0 = none ∧ s1 = none ∧ s2 = none then Except.ok t
          else t.substituteTensor dim pos
            (arangeTensor dim (s0.getD 0) (s1.getD (t.shape.getD pos 0 : ℤ))
              (s2.getD 1))) = .ok r := h
      by_cases hall : s0 = none ∧ s1 = none ∧ s2 = none
      · rw [if_pos hall] at h; cases h; exact hit
      · rw [if_neg hall] at h
        exact substituteTensor_ok_inv t _ dim pos r hit
          ⟨List.nodup_singleton _, rfl⟩ hpos hget h
    | tens u => exact substituteTensor_ok_inv t u dim pos r hit hiv hpos hget h
    | str s =>
      replace h : (if t.dims.getD pos "" = s then Except.ok t
          else Except.ok (⟨t.dims.set pos dim, t.shape, t.data⟩ : PT))
          = .ok r := h
      by_cases hs : t.dims.getD pos "" = s
      · rw [if_pos hs] at h; cases h; exact hit
      · rw [if_neg hs] at h
        cases h
        have hset : t.dims.set pos dim = t.dims :=
          list_set_self t.dims pos dim hpos hget
        exact ⟨by rw [hset]; exact hit.1, by rw [hset]; exact hit.2⟩
    | ellipsis => cases h
    | other => cases h



theorem setAssoc_snd (kw : List (String × CallV)) (k : String) (v : CallV) :
    ∀ p ∈ setAssoc kw k v, p.2 = v ∨ ∃ q ∈ kw, p.2 = q.2 := by
  induction kw with
  | nil =>
    intro p hp
    have hp' := List.mem_singleton.mp hp
    subst hp'
    exact Or.inl rfl
  | cons e rest ih =>
    intro p hp
    obtain ⟨k', v'⟩ := e
    unfold setAssoc at hp
    by_cases hk : k' = k
    · rw [if_pos hk] at hp
      rcases List.mem_cons.mp hp with rfl | hmem
      · exact Or.inl rfl
      · exact Or.inr ⟨p, List.mem_cons.mpr (Or.inr hmem), rfl⟩
    · rw [if_neg hk] at hp
      rcases List.mem_cons.mp hp with rfl | hmem
      · exact Or.inr ⟨(k', v'), List.mem_cons.mpr (Or.inl rfl), rfl⟩
      · rcases ih p hmem with h | ⟨q, hq, hpq⟩
        · exact Or.inl h
        · exact Or.inr ⟨q, List.mem_cons.mpr (Or.inr hq), hpq⟩

theorem updAssoc_snd (upds : List (String × CallV)) :
    ∀ (kw : List (String × CallV)), ∀ p ∈ updAssoc kw upds,
      (∃ q ∈ kw, p.2 = q.2) ∨ ∃ q ∈ upds, p.2 = q.2 := by
  induction upds with
  | nil => exact fun kw p hp => Or.inl ⟨p, hp, rfl⟩
  | cons e rest ih =>
    intro kw p hp
    rw [show updAssoc kw (e :: rest) = updAssoc (setAssoc kw e.1 e.2) rest
      from rfl] at hp
    rcases ih (setAssoc kw e.1 e.2) p hp with ⟨q, hq, hpq⟩ | ⟨q, hq, hpq⟩
    · rcases setAssoc_snd kw e.1 e.2 q hq with h | ⟨q', hq', hqq⟩
      · exact Or.inr ⟨e, List.mem_cons.mpr (Or.inl rfl), hpq.trans h⟩
      · exact Or.inl ⟨q', hq', hpq.trans hqq⟩
    · exact Or.inr ⟨q, List.mem_cons.mpr (Or.inr hq), hpq⟩

theorem foldlM_substitute_inv :
    ∀ (kws : List (String × CallV)) (t : PT), InvT t →
      (∀ p ∈ kws, InvV p.2) → ∀ r,
      kws.foldlM (fun u p => u.substitute p.1 p.2) t = .ok r → InvT r := by
  intro kws
  induction kws with
  | nil =>
    intro t hit _ r h
    cases h
    exact hit
  | cons p rest ih =>
    intro t hit hv r h
    rw [List.foldlM_cons] at h
    cases hs : t.substitute p.1 p.2 with
    | error e => rw [hs] at h; cases h
    | ok u =>
      rw [hs] at h
      exact ih u (substitute_ok_inv t p.1 p.2 u hit (hv p (.head _)) hs)
        (fun q hq => hv q (.tail _ hq)) r h

theorem call_ok_inv (t : PT) (args : List CallV)
    (kwargs : List (String × CallV)) (r : PT) (hit : InvT t)
    (hargs : ∀ v ∈ args, InvV v) (hkw : ∀ p ∈ kwargs, InvV p.2)
    (h : t.call args kwargs = .ok r) : InvT r := by
  unfold PT.call at h
  refine foldlM_substitute_inv _ t hit ?_ r h
  intro p hp
  have hkw0 : ∀ q ∈ kwargs.filter (fun p => decide (p.1 ∈ t.dims)),
      InvV q.2 := fun q hq => hkw q (List.mem_of_mem_filter hq)
  rcases updAssoc_snd _ _ p hp with ⟨q, hq, hpq⟩ | ⟨q, hq, hpq⟩
  · -- q is in the ellipsis-adjusted kwargs
    cases hfe : findEllipsis args with
    | none =>
      rw [hfe] at hq
      rw [hpq]
      exact hkw0 q hq
    | some pos =>
      rw [hfe] at hq
      rw [hpq]
      rcases updAssoc_snd _ _ q hq with ⟨q', hq', hqq⟩ | ⟨q', hq', hqq⟩
      · rw [hqq]; exact hkw0 q' hq'
      · rw [hqq]
        have := (List.of_mem_zip hq').2
        exact hargs q'.2 (List.mem_of_mem_drop (List.mem_reverse.mp this))
  · -- q comes from the positional zip
    rw [hpq]
    cases hfe : findEllipsis args with
    | none =>
      rw [hfe] at hq
      exact hargs q.2 ((List.of_mem_zip hq).2)
    | some pos =>
      rw [hfe] at hq
      exact hargs q.2 (List.mem_of_mem_take ((List.of_mem_zip hq).2))



theorem removeAxis_inv (t : PT) (op : OpT) (pos : ℕ) (h : InvT t) :
    InvT (t.removeAxis op pos) :=
  ⟨(eraseIdx_keeps_inv t.dims t.shape pos h.1 h.2).1,
   (eraseIdx_keeps_inv t.dims t.shape pos h.1 h.2).2⟩

theorem foldl_removeAxis_inv (op : OpT) :
    ∀ (l : List ℕ) (t : PT), InvT t →
      InvT (l.foldl (fun u pos => u.removeAxis op pos) t) := by
  intro l
  induction l with
  | nil => exact fun t h => h
  | cons pos rest ih =>
    intro t h
    rw [List.foldl_cons]
    exact ih _ (removeAxis_inv t op pos h)

theorem PT.reduce_inv (t : PT) (op : OpT) (dsel : Option (List String))
    (h : InvT t) : InvT (t.reduce op dsel) := by
  cases dsel with
  | none => exact ⟨List.nodup_nil, rfl⟩
  | some ds =>
    show InvT (if t.dims.filter (fun d => decide (d ∈ ds)) = [] then t
      else (((List.range t.dims.length).filter
          (fun i => decide (t.dims.getD i "" ∈ ds))).reverse).foldl
        (fun u pos => u.removeAxis op pos) t)
    by_cases hf : t.dims.filter (fun d => decide (d ∈ ds)) = []
    · rw [if_pos hf]; exact h
    · rw [if_neg hf]; exact foldl_removeAxis_inv op _ t h

theorem PT.pb_tensor_inv (t u : PT) (op : ℤ → ℤ → ℤ)
    (ht : InvT t) (hu : InvT u) : InvT (t.pointwise_binary u op) := by
  unfold PT.pointwise_binary
  by_cases hd : t.dims = u.dims
  · rw [if_pos hd]
    refine ⟨ht.1, ?_⟩
    simp only [List.length_zipWith]
    have h1 := ht.2
    have h2 := hu.2
    have h3 := congrArg List.length hd
    omega
  · rw [if_neg hd]
    exact ⟨unionDims_nodup _ _ ht.1 hu.1, (unionSizes_length _ _ _ _ _).symm⟩

theorem PF.pb_generic_inv (f g : PF) (op : ℤ → ℤ → ℤ)
    (hf : InvF f) (hg : InvF g) : InvF (f.pointwise_binary g op) := by
  unfold PF.pointwise_binary
  by_cases hd : f.dims = g.dims
  · rw [if_pos hd]
    exact hf
  · rw [if_neg hd]
    exact ⟨unionDims_nodup _ _ hf.1 hg.1, (unionSizes_length _ _ _ _ _).symm⟩

theorem genericReduceGo_ok_inv (op : ℤ → ℤ → ℤ) :
    ∀ (ds : List String) (f : PF), InvF f → ∀ r,
      genericReduceGo op ds f = .ok r → InvF r := by
  intro ds
  induction ds with
  | nil =>
    intro f hf r h
    cases h
    exact hf
  | cons d0 rest ih =>
    intro f hf r h
    unfold genericReduceGo at h
    cases hs : f.schema d0 with
    | none => rw [hs] at h; cases h
    | some sz =>
      rw [hs] at h
      cases sz with
      | dom s => cases h
      | fin n =>
        cases n with
        | zero => cases h
        | succ m =>
          refine ih _ ?_ r h
          have hkeep := foldl_pb_keeps op
            ((List.range m).map (fun i => f.subst d0 ((i : ℤ) + 1)))
            (f.subst d0 0)
            (fun b hb => by rcases List.mem_map.mp hb with ⟨j, hj, rfl⟩; rfl)
          constructor
          · rw [hkeep.1, PF.subst_dims]
            exact hf.1.filter _
          · rw [hkeep.1, hkeep.2]
            exact PF.subst_len f d0 0 hf.2

theorem genericReduce_ok_inv (f : PF) (op : ℤ → ℤ → ℤ)
    (dsel : Option (List String)) (hf : InvF f) :
    ∀ r, genericReduce f op dsel = .ok r → InvF r := by
  cases dsel with
  | none => exact genericReduceGo_ok_inv op f.dims f hf
  | some req => exact genericReduceGo_ok_inv op _ f hf

theorem PF.contract_ok_inv (f : PF)
    (tr : ((String → ℤ) → ℤ) → (String → ℤ) → ℤ) (sumOp : ℤ → ℤ → ℤ)
    (dsel : Option (List String)) (hf : InvF f) :
    ∀ r, f.contract tr sumOp dsel = .ok r → InvF r :=
  genericReduce_ok_inv (f.pointwise_unary tr) sumOp dsel hf

/-- C7: the dimension invariant — unique dims, parallel to the shape —
holds for the funsor returned by every operation: `pointwise_unary`,
`pointwise_binary` (both the aligned Tensor-Tensor fast path and the
generic schema-union path), `reduce` (both the native Tensor path and the
generic enumeration, whenever it returns a funsor), `__call__` (whenever
substitution succeeds), and `contract` on Function-backed receivers
(whenever it returns a funsor; on Tensor receivers `contract` raises, see
C1). -/
theorem C7_dimension_invariants (t u : PT) (g k : PF) (op1 : ℤ → ℤ) (op2 : ℤ → ℤ → ℤ)
    (rop : OpT) (dsel : Option (List String)) (args : List CallV)
    (kwargs : List (String × CallV))
    (tr : ((String → ℤ) → ℤ) → (String → ℤ) → ℤ)
    (hit : InvT t) (hiu : InvT u) (hig : InvF g) (hik : InvF k) :
    InvT (t.pointwise_unary op1)
    ∧ InvT (t.pointwise_binary u op2)
    ∧ InvT (t.reduce rop dsel)
    ∧ ((∀ v ∈ args, InvV v) → (∀ p ∈ kwargs, InvV p.2) →
        ∀ r, t.call args kwargs = .ok r → InvT r)
    ∧ InvF (g.pointwise_unary tr)
    ∧ InvF (g.pointwise_binary k op2)
    ∧ (∀ r, genericReduce g op2 dsel = .ok r → InvF r)
    ∧ (∀ r, g.contract tr op2 dsel = .ok r → InvF r) := by
  refine ⟨hit, PT.pb_tensor_inv t u op2 hit hiu,
    PT.reduce_inv t rop dsel hit,
    fun hargs hkw r h => call_ok_inv t args kwargs r hit hargs hkw h,
    hig, PF.pb_generic_inv g k op2 hig hik,
    genericReduce_ok_inv g op2 dsel hig,
    PF.contract_ok_inv g tr op2 dsel hig⟩

/-- Witness for C7 at concrete funsors: the invariant holds for the
operands and is preserved by a Tensor product, a full Tensor reduction,
and a generic schema-union pointwise product. -/
theorem C7_dimension_invariants_witness :
    InvT c1_a ∧ InvT c1_b ∧ InvF c8_f ∧ InvF c8_g
    ∧ InvT (c1_a.pointwise_binary c1_b (· * ·))
    ∧ InvT (c1_a.reduce OpT.add none)
    ∧ InvF (c8_f.pointwise_binary c8_g (· + ·)) := by
  have h := C7_dimension_invariants c1_a c1_b c8_f c8_g (· + 1) (· * ·) OpT.add none [] []
    id ⟨by decide, by decide⟩ ⟨by decide, by decide⟩
    ⟨by decide, by decide⟩ ⟨by decide, by decide⟩
  have h2 := C7_dimension_invariants c1_a c1_b c8_f c8_g (· + 1) (· + ·) OpT.add none [] []
    id ⟨by decide, by decide⟩ ⟨by decide, by decide⟩
    ⟨by decide, by decide⟩ ⟨by decide, by decide⟩
  exact ⟨⟨by decide, by decide⟩, ⟨by decide, by decide⟩,
    ⟨by decide, by decide⟩, ⟨by decide, by decide⟩,
    h.2.1, h.2.2.1, h2.2.2.2.2.2.1⟩

end FunsorModel
